import Mathlib

/-!
Verification of the flexcore core against its specification.

The development shallowly embeds the C++ sources:
* `src/ports/event_ports.hpp` — event source/sink ports, `fire`, `connect`
  dispatch and the `event_proxy` chain builder;
* `src/nodes/list_manipulation.hpp` — `list_splitter` and `list_collector`;
* `src/nodes/state_nodes.hpp` — `merge_node`;
* `flexcore/extended/base_node.hpp` — the node ownership tree
  (`erase_with_subtree`, `make_child`).

Event handlers are modelled as state transformers `ε → σ → σ` over an
explicit observation state `σ`, so that "each handler runs exactly once, in
order, with the same value" is expressible as a fact about an observation
log.  The C++ `event_out_port` stores its handler vector behind a
`std::shared_ptr`; copying the port copies the pointer, not the vector.  We
model this with an explicit heap mapping addresses to handler lists: the
port value holds only the address, and a copy of the port holds the same
address.
-/

namespace fc

/-- Type of event handlers, as stored in `event_in_port` / the fan-out list of
`event_out_port`: a handler receives the event value and transforms the
observable world. -/
def Handler (ε σ : Type) : Type := ε → σ → σ

/-- An `event_out_port` value: it holds (the address of) the shared handler
vector, mirroring the `std::shared_ptr<std::vector<handler_t>>` member. -/
structure event_out_port where
  handlers_ptr : Nat
deriving DecidableEq

/-- The heap of shared handler vectors: maps an address to the handler list
stored there. -/
def Heap (ε σ : Type) : Type := Nat → List (Handler ε σ)

/-- `event_out_port::fire`: calls every registered handler, in order, with the
event value (`for (auto target : *event_handlers) target(event);`). -/
def firePort {ε σ : Type} (H : Heap ε σ) (p : event_out_port) (e : ε) (s : σ) : σ :=
  (H p.handlers_ptr).foldl (fun st h => h e st) s

/-- `event_out_port::connect`: appends a new handler to the shared vector
(`event_handlers->push_back(new_handler);`). -/
def connectPort {ε σ : Type} (H : Heap ε σ) (p : event_out_port) (h : Handler ε σ) :
    Heap ε σ :=
  fun n => if n = p.handlers_ptr then H n ++ [h] else H n

/-- Copying an `event_out_port` copies the `shared_ptr`, i.e. the address of
the handler vector, never the vector itself. -/
def copyPort (p : event_out_port) : event_out_port := p

/-- Registering a list of handlers one after the other via
`event_out_port::connect`. -/
def registerAll {ε σ : Type} (H : Heap ε σ) (p : event_out_port)
    (hs : List (Handler ε σ)) : Heap ε σ :=
  hs.foldl (fun acc h => connectPort acc p h) H

/-- Observation handlers: handler `f` appends `f e` to the log when invoked
with event `e`.  Used to observe which handlers a `fire` invokes, how often,
in which order and with which value. -/
def logHandlers {ε α : Type} (fs : List (ε → α)) : List (Handler ε (List α)) :=
  fs.map (fun f => fun e log => log ++ [f e])

theorem connectPort_lookup {ε σ : Type} (H : Heap ε σ) (p : event_out_port)
    (h : Handler ε σ) :
    connectPort H p h p.handlers_ptr = H p.handlers_ptr ++ [h] := by
  simp [connectPort]

theorem registerAll_lookup {ε σ : Type} (H : Heap ε σ) (p : event_out_port)
    (hs : List (Handler ε σ)) :
    registerAll H p hs p.handlers_ptr = H p.handlers_ptr ++ hs := by
  induction hs generalizing H with
  | nil => simp [registerAll]
  | cons h t ih =>
    have : registerAll H p (h :: t) = registerAll (connectPort H p h) p t := rfl
    rw [this, ih, connectPort_lookup]
    simp

theorem foldl_logHandlers {ε α : Type} (fs : List (ε → α)) (e : ε) (log : List α) :
    (logHandlers fs).foldl (fun st h => h e st) log = log ++ fs.map (fun f => f e) := by
  induction fs generalizing log with
  | nil => simp [logHandlers]
  | cons f t ih => simp [logHandlers] at ih ⊢; rw [ih]; simp

/-- An `event_proxy` as built by the chain-building `connect`: it wraps the
original source port and the composed chain of intermediate transforms
accumulated so far (`source` and `stored_sink` members). -/
structure event_proxy (ε : Type) where
  source : event_out_port
  stored_sink : ε → ε

/-- The second operand of `connect`: either a complete event sink
(`is_event_sink` holds — it wraps a handler) or an intermediate transform
that is not a sink. -/
inductive connectable (ε σ : Type) where
  | snk : Handler ε σ → connectable ε σ
  | mid : (ε → ε) → connectable ε σ

/-- The first operand of `connect`: an event source port, or an
`event_proxy` (which `connect_impl` dispatches to by
`is_instantiation_of<event_proxy, source_t>`). -/
inductive src_operand (ε : Type) where
  | port : event_out_port → src_operand ε
  | proxy : event_proxy ε → src_operand ε

/-- Result of a `connect` call: either the terminal case (`void` return, the
handler registration has been performed — we return the updated heap), or a
new `event_proxy` value. -/
inductive connect_result (ε σ : Type) where
  | terminal : Heap ε σ → connect_result ε σ
  | proxied : event_proxy ε → connect_result ε σ

/-- Modelled from the spec: the generic `connect` of `core/connection.hpp`
(not under src/) combines an intermediate transform with a further
transform into their composition (data flows through the first, then the
second). -/
def chainMid {ε : Type} (c f : ε → ε) : ε → ε := fun e => f (c e)

/-- Modelled from the spec: the generic `connect` of `core/connection.hpp`
(not under src/) combines an intermediate transform with a sink handler
into the handler that first applies the transform chain. -/
def chainHandler {ε σ : Type} (c : ε → ε) (h : Handler ε σ) : Handler ε σ :=
  fun e s => h (c e) s

/-- The `connect` dispatch of `event_ports.hpp`, one case per
`connect_impl` specialization / `event_proxy::connect` overload:
* source port, sink operand: `source.connect(sink)` and return `void`;
* source port, non-sink operand: build `event_proxy(source, sink)`;
* proxy, non-sink operand: `event_proxy(source, fc::connect(stored_sink, sink))`;
* proxy, sink operand: `tmp = fc::connect(stored_sink, sink); source.connect(tmp)`,
  return `void`. -/
def connectEvent {ε σ : Type} (H : Heap ε σ) :
    src_operand ε → connectable ε σ → connect_result ε σ
  | .port p, .snk h => .terminal (connectPort H p h)
  | .port p, .mid f => .proxied ⟨p, f⟩
  | .proxy pr, .mid f => .proxied ⟨pr.source, chainMid pr.stored_sink f⟩
  | .proxy pr, .snk h => .terminal (connectPort H pr.source (chainHandler pr.stored_sink h))

/-- C1: a single `fire` on an event source on which the handlers observing
`fs` were registered (onto an empty handler list) invokes each handler
exactly once, in registration order, each with the same event value `e`:
the observation log gains exactly the entries `f e`, `f` over `fs`, in
order. -/
theorem fire_fanout {ε α : Type} (fs : List (ε → α)) (p : event_out_port)
    (H : Heap ε (List α)) (hempty : H p.handlers_ptr = []) (e : ε) (log : List α) :
    firePort (registerAll H p (logHandlers fs)) p e log = log ++ fs.map (fun f => f e) := by
  unfold firePort
  rw [registerAll_lookup, hempty, List.nil_append, foldl_logHandlers]

/-- Witness for C1 at a concrete input: two handlers registered on a fresh
port, one fire, both run once in order with the same value. -/
theorem fire_fanout_witness :
    firePort (registerAll (fun _ => []) ⟨0⟩
        (logHandlers [fun e => e + 1, fun e => e * 2])) ⟨0⟩ 5 [] = [6, 10] :=
  fire_fanout [fun e => e + 1, fun e => e * 2] ⟨0⟩ (fun _ => []) rfl 5 []

/-- C3: the handler list is shared, not copied, across copies of the port
value: connecting a handler through a copy of the port appends it to the
very handler list the original reads, so a subsequent fire on the original
(or on any copy) invokes it; and firing a copy behaves exactly like firing
the original. -/
theorem handler_list_shared {ε σ : Type} (H : Heap ε σ) (p : event_out_port)
    (h : Handler ε σ) (e : ε) (s : σ) :
    connectPort H (copyPort p) h p.handlers_ptr = H p.handlers_ptr ++ [h] ∧
    firePort (connectPort H (copyPort p) h) p e s = h e (firePort H p e s) ∧
    firePort H (copyPort p) e s = firePort H p e s := by
  refine ⟨connectPort_lookup H p h, ?_, rfl⟩
  show firePort (connectPort H p h) p e s = h e (firePort H p e s)
  unfold firePort
  rw [connectPort_lookup, List.foldl_append]
  rfl

/-- C2: the `connect` dispatch.  With a source port and a sink, the handler
is registered in the source's target list (so a later fire reaches it) and
nothing else is returned; with a source port and a non-sink, a proxy
wrapping both is returned and no registration happens; a proxy extended
with a non-sink yields a new proxy with the same source and the extended
chain; a proxy terminated with a sink registers the chained handler on the
original source. -/
theorem connect_dispatch {ε σ : Type} (H : Heap ε σ) (p : event_out_port)
    (h : Handler ε σ) (f g : ε → ε) (e : ε) (s : σ) :
    (connectEvent H (.port p) (.snk h) = .terminal (connectPort H p h) ∧
      firePort (connectPort H p h) p e s = h e (firePort H p e s)) ∧
    connectEvent H (.port p) (.mid f) = .proxied ⟨p, f⟩ ∧
    connectEvent H (.proxy ⟨p, f⟩) (.mid g) = .proxied ⟨p, fun x => g (f x)⟩ ∧
    (connectEvent H (.proxy ⟨p, f⟩) (.snk h) =
        .terminal (connectPort H p (chainHandler f h)) ∧
      firePort (connectPort H p (chainHandler f h)) p e s =
        h (f e) (firePort H p e s)) := by
  have hfire : ∀ h' : Handler ε σ,
      firePort (connectPort H p h') p e s = h' e (firePort H p e s) := by
    intro h'
    unfold firePort
    rw [connectPort_lookup, List.foldl_append]
    rfl
  exact ⟨⟨rfl, hfire h⟩, rfl, rfl, rfl, hfire (chainHandler f h)⟩

/-!
`list_splitter` (src/nodes/list_manipulation.hpp).  Its state is the
`std::map<predicate_result_t, entry_t> entries` (an entry is an output port
plus its per-firing data buffer) and the `out_num_dropped` counter.  A
`std::map` iterates in ascending key order, so we embed it as an
association list kept sorted by key; `out(value)` inserts (key, empty
entry) at the sorted position when the key is absent.  The observable of
one `receive` is, besides the updated state, the list of `(key, data)`
fires it performs, in iteration order of `entries`.
-/

/-- State of a `list_splitter`: the `entries` map (association list in
`std::map` iteration order, i.e. ascending key order) holding each output
port's per-firing data buffer, and the `out_num_dropped` counter. -/
structure SplitterState (κ α : Type) where
  entries : List (κ × List α)
  num_dropped : Nat
deriving DecidableEq

/-- `std::map::find`, on the sorted association list. -/
def mapFind? {κ β : Type} [DecidableEq κ] : List (κ × β) → κ → Option β
  | [], _ => none
  | (k', v) :: rest, k => if k = k' then some v else mapFind? rest k

/-- `std::map::insert` of an absent key: places the new pair at its sorted
position (only ever called by `out` after `find` failed). -/
def mapInsert {κ β : Type} [LinearOrder κ] : List (κ × β) → κ → β → List (κ × β)
  | [], k, v => [(k, v)]
  | (k', v') :: rest, k, v =>
    if k < k' then (k, v) :: (k', v') :: rest
    else (k', v') :: mapInsert rest k v

/-- A freshly constructed `list_splitter`: no entries, drop counter 0. -/
def splitterInit {κ α : Type} : SplitterState κ α := ⟨[], 0⟩

/-- `list_splitter::out(value)`: looks the key up in `entries` and inserts a
fresh entry (empty data buffer) when absent; the state is otherwise
unchanged (the returned port is identified by its key). -/
def outOp {κ α : Type} [LinearOrder κ] (s : SplitterState κ α) (k : κ) :
    SplitterState κ α :=
  match mapFind? s.entries k with
  | some _ => s
  | none => { s with entries := mapInsert s.entries k [] }

/-- Appending an element to the data buffer of the (present) entry for key
`k` (`entry_it->second.data.push_back(*it)`). -/
def appendData {κ α : Type} [DecidableEq κ] :
    List (κ × List α) → κ → α → List (κ × List α)
  | [], _, _ => []
  | (k', d) :: rest, k, x =>
    if k = k' then (k', d ++ [x]) :: rest else (k', d) :: appendData rest k x

/-- One iteration of the sorting loop of `list_splitter::receive`: the
element's predicate key is looked up in `entries`; found → element appended
to that entry's buffer, not found → drop counter incremented. -/
def receiveStep {κ α : Type} [DecidableEq κ] (pred : α → κ)
    (st : SplitterState κ α) (x : α) : SplitterState κ α :=
  match mapFind? st.entries (pred x) with
  | some _ => { st with entries := appendData st.entries (pred x) x }
  | none => { st with num_dropped := st.num_dropped + 1 }

/-- `list_splitter::receive`: sorts every element of the range into the
entry buffers (or the drop counter), then fires each entry's port once with
its buffer, in `entries` iteration order, and clears all buffers.  Returns
the new state and the fire sequence as `(key, data)` pairs. -/
def receive {κ α : Type} [DecidableEq κ] (pred : α → κ) (s : SplitterState κ α)
    (range : List α) : SplitterState κ α × List (κ × List α) :=
  let s1 := range.foldl (receiveStep pred) s
  ({ s1 with entries := s1.entries.map (fun e => (e.1, [])) }, s1.entries)

theorem appendData_keys {κ α : Type} [DecidableEq κ] (l : List (κ × List α))
    (k : κ) (x : α) : (appendData l k x).map Prod.fst = l.map Prod.fst := by
  induction l with
  | nil => rfl
  | cons hd tl ih =>
    obtain ⟨k', d⟩ := hd
    by_cases hk : k = k' <;> simp [appendData, hk, ih]

theorem receiveStep_keys {κ α : Type} [DecidableEq κ] (pred : α → κ)
    (st : SplitterState κ α) (x : α) :
    (receiveStep pred st x).entries.map Prod.fst = st.entries.map Prod.fst := by
  unfold receiveStep
  cases mapFind? st.entries (pred x) <;> simp [appendData_keys]

theorem receive_fold_keys {κ α : Type} [DecidableEq κ] (pred : α → κ)
    (s : SplitterState κ α) (range : List α) :
    (range.foldl (receiveStep pred) s).entries.map Prod.fst = s.entries.map Prod.fst := by
  induction range generalizing s with
  | nil => rfl
  | cons x xs ih => rw [List.foldl_cons, ih, receiveStep_keys]

theorem mapInsert_keys_mem {κ β : Type} [LinearOrder κ] (l : List (κ × β))
    (k : κ) (v : β) (x : κ) (hx : x ∈ (mapInsert l k v).map Prod.fst) :
    x = k ∨ x ∈ l.map Prod.fst := by
  induction l with
  | nil =>
    rw [show mapInsert ([] : List (κ × β)) k v = [(k, v)] from rfl] at hx
    exact Or.inl (List.mem_singleton.mp hx)
  | cons hd tl ih =>
    obtain ⟨k', v'⟩ := hd
    have hstep : mapInsert ((k', v') :: tl) k v =
        if k < k' then (k, v) :: (k', v') :: tl else (k', v') :: mapInsert tl k v := rfl
    by_cases hlt : k < k'
    · rw [hstep, if_pos hlt, List.map_cons] at hx
      rcases List.mem_cons.mp hx with h | h
      · exact Or.inl h
      · exact Or.inr h
    · rw [hstep, if_neg hlt, List.map_cons] at hx
      rcases List.mem_cons.mp hx with h | h
      · exact Or.inr (by rw [List.map_cons]; exact List.mem_cons.mpr (Or.inl h))
      · rcases ih h with h' | h'
        · exact Or.inl h'
        · exact Or.inr (by rw [List.map_cons]; exact List.mem_cons.mpr (Or.inr h'))

theorem mapInsert_sorted {κ β : Type} [LinearOrder κ] (l : List (κ × β)) (k : κ)
    (v : β) (hs : List.Sorted (· < ·) (l.map Prod.fst)) (habs : mapFind? l k = none) :
    List.Sorted (· < ·) ((mapInsert l k v).map Prod.fst) := by
  induction l with
  | nil =>
    rw [show mapInsert ([] : List (κ × β)) k v = [(k, v)] from rfl]
    exact List.sorted_singleton k
  | cons hd tl ih =>
    obtain ⟨k', v'⟩ := hd
    rw [List.map_cons, List.sorted_cons] at hs
    have hcons : mapFind? ((k', v') :: tl) k = if k = k' then some v' else mapFind? tl k := rfl
    rw [hcons] at habs
    have hne : k ≠ k' := by
      intro heq
      rw [if_pos heq] at habs
      exact Option.noConfusion habs
    rw [if_neg hne] at habs
    have habs' : mapFind? tl k = none := habs
    have hstep : mapInsert ((k', v') :: tl) k v =
        if k < k' then (k, v) :: (k', v') :: tl else (k', v') :: mapInsert tl k v := rfl
    by_cases hlt : k < k'
    · rw [hstep, if_pos hlt, List.map_cons, List.map_cons, List.sorted_cons, List.sorted_cons]
      refine ⟨?_, hs.1, hs.2⟩
      intro b hb
      rcases List.mem_cons.mp hb with h | h
      · exact h ▸ hlt
      · exact lt_trans hlt (hs.1 b h)
    · have hk'k : k' < k := lt_of_le_of_ne (not_lt.mp hlt) (Ne.symm hne)
      rw [hstep, if_neg hlt, List.map_cons, List.sorted_cons]
      refine ⟨?_, ih hs.2 habs'⟩
      intro b hb
      rcases mapInsert_keys_mem tl k v b hb with h | h
      · exact h ▸ hk'k
      · exact hs.1 b h

theorem outOp_sorted {κ α : Type} [LinearOrder κ] (s : SplitterState κ α) (k : κ)
    (hs : List.Sorted (· < ·) (s.entries.map Prod.fst)) :
    List.Sorted (· < ·) ((outOp s k).entries.map Prod.fst) := by
  rcases hfind : mapFind? s.entries k with _ | v
  · simpa [outOp, hfind] using mapInsert_sorted s.entries k [] hs hfind
  · simpa [outOp, hfind] using hs

/-- C4: with outputs requested for exactly the two distinct keys `A` and
`B` (empty buffers), one firing of the input with four elements keyed
`A, A, C, B` fires output `A` with exactly the two A-elements in order,
output `B` with exactly the one B-element, fires no output for `C` (only
the two entries fire), and increments `out_num_dropped` by exactly 1. -/
theorem splitter_drop_accounting {κ α : Type} [DecidableEq κ] (A B C : κ)
    (e1 e2 e3 e4 : α) (pred : α → κ)
    (hAB : A ≠ B) (hAC : A ≠ C) (hBC : B ≠ C)
    (h1 : pred e1 = A) (h2 : pred e2 = A) (h3 : pred e3 = C) (h4 : pred e4 = B)
    (s : SplitterState κ α)
    (hs : s.entries = [(A, []), (B, [])] ∨ s.entries = [(B, []), (A, [])]) :
    mapFind? (receive pred s [e1, e2, e3, e4]).2 A = some [e1, e2] ∧
    mapFind? (receive pred s [e1, e2, e3, e4]).2 B = some [e4] ∧
    mapFind? (receive pred s [e1, e2, e3, e4]).2 C = none ∧
    (receive pred s [e1, e2, e3, e4]).2.length = 2 ∧
    (receive pred s [e1, e2, e3, e4]).1.num_dropped = s.num_dropped + 1 := by
  obtain ⟨ents, nd⟩ := s
  rcases hs with hs | hs <;> simp only at hs <;> subst hs <;>
    simp [receive, receiveStep, mapFind?, appendData, h1, h2, h3, h4,
      hAB, hAC, hBC, Ne.symm hAB, Ne.symm hAC, Ne.symm hBC]

/-- Witness for C4 at a concrete input: keys 10 and 20 registered, elements
keyed 10, 10, 30, 20, drop counter starting at 7. -/
theorem splitter_drop_accounting_witness :
    mapFind? (receive id (⟨[(10, []), (20, [])], 7⟩ : SplitterState Nat Nat)
        [10, 10, 30, 20]).2 10 = some [10, 10] ∧
    mapFind? (receive id (⟨[(10, []), (20, [])], 7⟩ : SplitterState Nat Nat)
        [10, 10, 30, 20]).2 20 = some [20] ∧
    mapFind? (receive id (⟨[(10, []), (20, [])], 7⟩ : SplitterState Nat Nat)
        [10, 10, 30, 20]).2 30 = none ∧
    (receive id (⟨[(10, []), (20, [])], 7⟩ : SplitterState Nat Nat)
        [10, 10, 30, 20]).2.length = 2 ∧
    (receive id (⟨[(10, []), (20, [])], 7⟩ : SplitterState Nat Nat)
        [10, 10, 30, 20]).1.num_dropped = 7 + 1 :=
  splitter_drop_accounting 10 20 30 10 10 30 20 id (by decide) (by decide)
    (by decide) rfl rfl rfl rfl ⟨[(10, []), (20, [])], 7⟩ (Or.inl rfl)

/-- Counterexample to C5 as stated: outputs requested first for key 2, then
for key 1 (insertion order of first-seen keys is `[2, 1]`), but one firing
with elements `[1, 2]` fires the ports in ascending key order `[1, 2]` —
`std::map` iterates in key order, not in insertion order. -/
theorem splitter_insertion_order_cex :
    (receive id (outOp (outOp (splitterInit : SplitterState Nat Nat) 2) 1)
        [1, 2]).2.map Prod.fst = [1, 2] ∧
    [1, 2] ≠ [2, 1] := by
  constructor
  · decide
  · decide

/-- C5 (amended): within one firing, the distinct output ports fire in the
iteration order of the `entries` map, which is ascending key order (the
`std::map` comparator order) — not the insertion order of first-seen keys.
Given the map invariant (keys sorted ascending), the fire sequence's keys
are exactly the entry keys, in ascending order. -/
theorem splitter_fire_order {κ α : Type} [LinearOrder κ] (pred : α → κ)
    (s : SplitterState κ α) (range : List α)
    (hsorted : List.Sorted (· < ·) (s.entries.map Prod.fst)) :
    (receive pred s range).2.map Prod.fst = s.entries.map Prod.fst ∧
    List.Sorted (· < ·) ((receive pred s range).2.map Prod.fst) := by
  have hkeys : (receive pred s range).2.map Prod.fst = s.entries.map Prod.fst := by
    show (range.foldl (receiveStep pred) s).entries.map Prod.fst = _
    exact receive_fold_keys pred s range
  exact ⟨hkeys, hkeys ▸ hsorted⟩

/-- Witness for the amended C5 at a concrete input. -/
theorem splitter_fire_order_witness :
    (receive id (⟨[(1, []), (2, [])], 0⟩ : SplitterState Nat Nat)
        [2, 1, 1]).2.map Prod.fst = [1, 2] ∧
    List.Sorted (· < ·) ((receive id (⟨[(1, []), (2, [])], 0⟩ : SplitterState Nat Nat)
        [2, 1, 1]).2.map Prod.fst) :=
  splitter_fire_order id ⟨[(1, []), (2, [])], 0⟩ [2, 1, 1] (by decide)

/-!
`list_collector` (src/nodes/list_manipulation.hpp): two buffers,
`buffer_collect` (receives append here) and `buffer_state` (handed out on
pull).  `get_state` clears `buffer_state`, swaps it with `buffer_collect`
and returns (the range over) the new `buffer_state`.
-/

/-- State of a `list_collector`: the accumulation buffer and the hand-off
buffer. -/
structure CollectorState (α : Type) where
  buffer_collect : List α
  buffer_state : List α
deriving DecidableEq

/-- A freshly constructed `list_collector`: both buffers empty. -/
def collectorInit {α : Type} : CollectorState α := ⟨[], []⟩

/-- `list_collector::receive`: appends the received range to
`buffer_collect` (`buffer_collect.insert(buffer_collect.end(), begin, end)`). -/
def collectorReceive {α : Type} (s : CollectorState α) (range : List α) :
    CollectorState α :=
  { s with buffer_collect := s.buffer_collect ++ range }

/-- `list_collector::get_state`: `buffer_state.clear(); buffer_state.swap(
buffer_collect);` then returns the range over `buffer_state`.  Result: the
pulled range and the state after the pull. -/
def get_state {α : Type} (s : CollectorState α) : List α × CollectorState α :=
  (s.buffer_collect, ⟨[], s.buffer_collect⟩)

/-- C6: pulling a fresh `list_collector` yields the empty range; after
receiving `[1, 2, 3]` a pull yields `[1, 2, 3]`; an immediately following
pull yields the empty range again. -/
theorem collector_windowing :
    (get_state (collectorInit : CollectorState Nat)).1 = [] ∧
    (get_state (collectorReceive collectorInit [1, 2, 3])).1 = [1, 2, 3] ∧
    (get_state (get_state (collectorReceive collectorInit [1, 2, 3])).2).1 = [] := by
  decide

theorem collector_fold_collect {α : Type} (c bs : List α) (rs : List (List α)) :
    (rs.foldl collectorReceive ⟨c, bs⟩).buffer_collect = c ++ rs.flatten := by
  induction rs generalizing c with
  | nil => simp
  | cons r rest ih =>
    rw [List.foldl_cons]
    show (rest.foldl collectorReceive ⟨c ++ r, bs⟩).buffer_collect = _
    rw [ih, List.flatten_cons, List.append_assoc]

/-- C10: whatever state a collector was in, after a pull followed by any
sequence of receives, the next pull yields exactly the concatenation of the
ranges received since that pull, in arrival order. -/
theorem collector_pull_concat {α : Type} (s0 : CollectorState α)
    (rs : List (List α)) :
    (get_state (rs.foldl collectorReceive (get_state s0).2)).1 = rs.flatten := by
  show (rs.foldl collectorReceive ⟨[], s0.buffer_collect⟩).buffer_collect = _
  rw [collector_fold_collect, List.nil_append]

/-!
`merge_node` (src/nodes/state_nodes.hpp), at the binary instantiation the
claim is about.  A connected `state_sink`'s `get()` calls the upstream pull
function; calling it is an effect on an observation world `ω`, so a sink is
embedded as `ω → α × ω`.  `operator()` calls `invoke_helper`, which
evaluates `op(std::get<index>(tup).get()...)`: the `.get()` calls are the
arguments of a single function call, so each input sink is pulled exactly
once, but the C++ standard leaves the relative order of the two pulls
unspecified (function-call arguments are unsequenced).  The embedding
therefore takes the evaluation schedule — which of the two unsequenced
pulls the implementation performs first — as an explicit parameter, and
properties of the code must hold for every schedule.
-/

/-- A connected `state_sink<α>`: its `get()` pulls the upstream value,
observably (the observation world `ω` records the pull). -/
def StateSink (ω α : Type) : Type := ω → α × ω

/-- An implementation-chosen evaluation schedule for the two unsequenced
argument evaluations of `op(get<0>(tup).get(), get<1>(tup).get())`. -/
inductive ArgOrder where
  | leftFirst : ArgOrder
  | rightFirst : ArgOrder

/-- `merge_node::operator()` / `invoke_helper` for a binary operation:
pulls both input sinks — each exactly once, in the order the
implementation's schedule for the unsequenced argument evaluations
dictates — and applies `op` to the pulled values; nothing is cached
between invocations. -/
def mergeInvoke {ω α β γ : Type} (ord : ArgOrder) (op : α → β → γ)
    (in0 : StateSink ω α) (in1 : StateSink ω β) (w : ω) : γ × ω :=
  match ord with
  | ArgOrder.leftFirst =>
    let a := in0 w
    let b := in1 a.2
    (op a.1 b.1, b.2)
  | ArgOrder.rightFirst =>
    let b := in1 w
    let a := in0 b.2
    (op a.1 b.1, a.2)

/-- A state sink connected to a constant-producing source whose pulls are
logged under tag `tag`. -/
def constSink {α : Type} (tag : Nat) (v : α) : StateSink (List Nat) α :=
  fun w => (v, w ++ [tag])

/-- Counterexample to C7 as stated: "re-pulls all input sinks in argument
order" fails on the code, because the two `.get()` calls are unsequenced
function-call arguments — the right-to-left schedule is a legal execution
of `invoke_helper`, and under it one invocation with inputs producing 3
and 4 pulls input 1 before input 0 (pull log `[1, 0]`, not the argument
order `[0, 1]`), while still returning `f 3 4 = 7` for addition. -/
theorem merge_pull_order_cex :
    (mergeInvoke ArgOrder.rightFirst (fun a b => a + b)
        (constSink 0 3) (constSink 1 4) []).2 = [1, 0] ∧
    [1, 0] ≠ [0, 1] ∧
    (mergeInvoke ArgOrder.rightFirst (fun a b => a + b)
        (constSink 0 3) (constSink 1 4) []).1 = 7 :=
  ⟨rfl, by decide, rfl⟩

/-- C7 (amended): a binary `merge_node` over `f` with input 0 producing 3
and input 1 producing 4 evaluates to `f 3 4`, re-pulling every input sink,
each exactly once, in an implementation-chosen (unspecified) order; after
input 0 is changed to produce 5, re-invoking yields `f 5 4` and again
re-pulls both inputs — no result is cached.  This holds for every
evaluation schedule of the unsequenced pulls. -/
theorem merge_arity_order (ord : ArgOrder) (f : Nat → Nat → Nat) :
    (mergeInvoke ord f (constSink 0 3) (constSink 1 4) []).1 = f 3 4 ∧
    ((mergeInvoke ord f (constSink 0 3) (constSink 1 4) []).2 = [0, 1] ∨
      (mergeInvoke ord f (constSink 0 3) (constSink 1 4) []).2 = [1, 0]) ∧
    (mergeInvoke ord f (constSink 0 5) (constSink 1 4) []).1 = f 5 4 ∧
    ((mergeInvoke ord f (constSink 0 5) (constSink 1 4) []).2 = [0, 1] ∨
      (mergeInvoke ord f (constSink 0 5) (constSink 1 4) []).2 = [1, 0]) := by
  cases ord with
  | leftFirst => exact ⟨rfl, Or.inl rfl, rfl, Or.inl rfl⟩
  | rightFirst => exact ⟨rfl, Or.inr rfl, rfl, Or.inr rfl⟩

/-!
The node ownership tree (flexcore/extended/base_node.hpp).  The tree
container itself is `adobe::forest`, an external collaborator of the core;
the spec fixes its boundary: child insertion at a position, depth-first
`leading_of`/`trailing_of` bounds of a subtree, and half-open-range erase.
We model the container from that boundary as a list of rose trees, with a
position being the path of child indices from the roots.
`erase_with_subtree(forest, position) = forest.erase(leading_of(position),
++trailing_of(position))` deletes exactly the subtree at the position,
which in the flattened depth-first (preorder) entry sequence is the
contiguous block starting at the subtree's leading bound.
-/

/-- A tree of the forest: a node value and its list of child subtrees. -/
inductive FTree (α : Type) where
  | node : α → List (FTree α) → FTree α

/-- Depth-first (preorder) sequence of the entries of a forest: each node
appears at its leading bound. -/
def preF {α : Type} : List (FTree α) → List α
  | [] => []
  | FTree.node v cs :: ts => v :: (preF cs ++ preF ts)

/-- Number of entries of a forest. -/
def sizeF {α : Type} (ts : List (FTree α)) : Nat := (preF ts).length

/-- Number of entries of a subtree (the node itself plus its descendants). -/
def sizeT {α : Type} (t : FTree α) : Nat := sizeF [t]

/-- Element lookup in a sibling list. -/
def treeNth {α : Type} : List (FTree α) → Nat → Option (FTree α)
  | [], _ => none
  | t :: _, 0 => some t
  | _ :: ts, n + 1 => treeNth ts n

/-- Replacing the tree at an index of a sibling list. -/
def modifyTree {α : Type} (f : FTree α → FTree α) :
    Nat → List (FTree α) → List (FTree α)
  | _, [] => []
  | 0, t :: ts => f t :: ts
  | n + 1, t :: ts => t :: modifyTree f n ts

/-- Removing the tree at an index of a sibling list. -/
def eraseNth {α : Type} : List (FTree α) → Nat → List (FTree α)
  | [], _ => []
  | _ :: ts, 0 => ts
  | t :: ts, n + 1 => t :: eraseNth ts n

/-- The subtree a position (path of child indices) refers to, when the
position is valid in the forest. -/
def forestGet {α : Type} : List Nat → List (FTree α) → Option (FTree α)
  | [], _ => none
  | [i], ts => treeNth ts i
  | i :: j :: q, ts =>
    match treeNth ts i with
    | some (FTree.node _ cs) => forestGet (j :: q) cs
    | none => none

/-- `erase_with_subtree(forest, position)`: erases the depth-first range
from the subtree's leading bound to one past its trailing bound, i.e. the
node at the position together with all its descendants. -/
def erase_with_subtree {α : Type} : List Nat → List (FTree α) → List (FTree α)
  | [], ts => ts
  | [i], ts => eraseNth ts i
  | i :: j :: q, ts =>
    modifyTree (fun t => match t with
      | FTree.node v cs => FTree.node v (erase_with_subtree (j :: q) cs)) i ts

/-- Index, in the depth-first entry sequence of the forest, of the leading
bound of the subtree at the given position (number of entries before it). -/
def forestPreIdx {α : Type} : List Nat → List (FTree α) → Nat
  | [], _ => 0
  | [i], ts => sizeF (ts.take i)
  | i :: j :: q, ts =>
    match treeNth ts i with
    | some (FTree.node _ cs) => sizeF (ts.take i) + 1 + forestPreIdx (j :: q) cs
    | none => 0

theorem preF_nil {α : Type} : preF ([] : List (FTree α)) = [] := by
  simp [preF]

theorem preF_cons_node {α : Type} (v : α) (cs ts : List (FTree α)) :
    preF (FTree.node v cs :: ts) = v :: (preF cs ++ preF ts) := by
  simp [preF]

theorem sizeT_node {α : Type} (v : α) (cs : List (FTree α)) :
    sizeT (FTree.node v cs) = 1 + (preF cs).length := by
  simp [sizeT, sizeF, preF_cons_node, preF_nil]
  omega

theorem sizeF_cons {α : Type} (t : FTree α) (ts : List (FTree α)) :
    sizeF (t :: ts) = sizeT t + sizeF ts := by
  obtain ⟨v, cs⟩ := t
  simp [sizeF, sizeT, preF_cons_node, preF_nil]
  omega

theorem take_drop_mid {γ : Type} (v : γ) (l₁ l₂ l₂' : List γ) (K sz : Nat)
    (hK : l₂' = l₂.take K ++ l₂.drop (K + sz)) :
    v :: (l₁ ++ l₂') =
      (v :: (l₁ ++ l₂)).take (1 + l₁.length + K) ++
        (v :: (l₁ ++ l₂)).drop (1 + l₁.length + K + sz) := by
  subst hK
  have h1 : 1 + l₁.length + K = (l₁.length + K) + 1 := by omega
  have h2 : 1 + l₁.length + K + sz = (l₁.length + (K + sz)) + 1 := by omega
  rw [h2, h1, List.take_succ_cons, List.drop_succ_cons, List.take_append,
    List.drop_append]
  simp [List.append_assoc]

theorem take_drop_child {γ : Type} (v : γ) (l₁ l₂ l₁' : List γ) (K sz : Nat)
    (hb : K + sz ≤ l₁.length) (hK : l₁' = l₁.take K ++ l₁.drop (K + sz)) :
    v :: (l₁' ++ l₂) =
      (v :: (l₁ ++ l₂)).take (K + 1) ++ (v :: (l₁ ++ l₂)).drop ((K + 1) + sz) := by
  subst hK
  have h2 : (K + 1) + sz = (K + sz) + 1 := by omega
  rw [h2, List.take_succ_cons, List.drop_succ_cons,
    List.take_append_of_le_length (by omega), List.drop_append_of_le_length hb]
  simp [List.append_assoc]

theorem eraseNth_spec {α : Type} (ts : List (FTree α)) :
    ∀ (i : Nat) (t : FTree α),
      treeNth ts i = some t →
      sizeF (ts.take i) + sizeT t ≤ sizeF ts ∧
      preF (eraseNth ts i) =
        (preF ts).take (sizeF (ts.take i)) ++
          (preF ts).drop (sizeF (ts.take i) + sizeT t) := by
  induction ts with
  | nil => intro i t h; cases h
  | cons hd tl ih =>
    intro i t h
    cases i with
    | zero =>
      have ht : hd = t := Option.some.inj h
      subst ht
      obtain ⟨v, cs⟩ := hd
      have h0 : sizeF ((FTree.node v cs :: tl).take 0) = 0 := by
        simp [sizeF, preF_nil]
      constructor
      · rw [h0, sizeF_cons]; omega
      · have he : eraseNth (FTree.node v cs :: tl) 0 = tl := rfl
        rw [he, h0, Nat.zero_add, List.take_zero, List.nil_append, preF_cons_node,
          sizeT_node, Nat.add_comm 1 (preF cs).length, List.drop_succ_cons,
          List.drop_left]
    | succ n =>
      have h' : treeNth tl n = some t := h
      obtain ⟨hb, heq⟩ := ih n t h'
      obtain ⟨v, cs⟩ := hd
      have hK : sizeF ((FTree.node v cs :: tl).take (n + 1)) =
          1 + (preF cs).length + sizeF (tl.take n) := by
        rw [List.take_succ_cons, sizeF_cons, sizeT_node]
      have herase : eraseNth (FTree.node v cs :: tl) (n + 1) =
          FTree.node v cs :: eraseNth tl n := rfl
      constructor
      · rw [hK, sizeF_cons, sizeT_node]
        have hsz : sizeF tl = (preF tl).length := rfl
        have hsz2 : sizeF (tl.take n) + sizeT t ≤ sizeF tl := hb
        omega
      · rw [hK, herase, preF_cons_node, preF_cons_node]
        exact take_drop_mid v (preF cs) (preF tl) (preF (eraseNth tl n))
          (sizeF (tl.take n)) (sizeT t) heq

theorem erase_spec_step {α : Type} (j : Nat) (q : List Nat)
    (ih : ∀ (ts : List (FTree α)) (t : FTree α),
      forestGet (j :: q) ts = some t →
      forestPreIdx (j :: q) ts + sizeT t ≤ sizeF ts ∧
      preF (erase_with_subtree (j :: q) ts) =
        (preF ts).take (forestPreIdx (j :: q) ts) ++
          (preF ts).drop (forestPreIdx (j :: q) ts + sizeT t)) :
    ∀ (ts : List (FTree α)) (i : Nat) (t : FTree α),
      forestGet (i :: j :: q) ts = some t →
      forestPreIdx (i :: j :: q) ts + sizeT t ≤ sizeF ts ∧
      preF (erase_with_subtree (i :: j :: q) ts) =
        (preF ts).take (forestPreIdx (i :: j :: q) ts) ++
          (preF ts).drop (forestPreIdx (i :: j :: q) ts + sizeT t) := by
  intro ts
  induction ts with
  | nil =>
    intro i t h
    cases i <;> exact absurd h (by simp [forestGet, treeNth])
  | cons hd tl ihts =>
    intro i t h
    cases i with
    | zero =>
      obtain ⟨v, cs⟩ := hd
      have h' : forestGet (j :: q) cs = some t := h
      obtain ⟨hbound, heq⟩ := ih cs t h'
      have hidx : forestPreIdx (0 :: j :: q) (FTree.node v cs :: tl) =
          forestPreIdx (j :: q) cs + 1 := by
        simp [forestPreIdx, treeNth, sizeF, preF_nil]; omega
      have her : erase_with_subtree (0 :: j :: q) (FTree.node v cs :: tl) =
          FTree.node v (erase_with_subtree (j :: q) cs) :: tl := rfl
      have hszcs : sizeF cs = (preF cs).length := rfl
      constructor
      · rw [hidx, sizeF_cons, sizeT_node]
        omega
      · rw [hidx, her, preF_cons_node, preF_cons_node]
        exact take_drop_child v (preF cs) (preF tl)
          (preF (erase_with_subtree (j :: q) cs)) (forestPreIdx (j :: q) cs)
          (sizeT t) (hszcs ▸ hbound) heq
    | succ n =>
      have h' : forestGet (n :: j :: q) tl = some t := h
      obtain ⟨hb2, he2⟩ := ihts n t h'
      rcases hnth : treeNth tl n with _ | tnode
      · exfalso
        simp [forestGet, hnth] at h'
      · obtain ⟨w, cs'⟩ := tnode
        obtain ⟨v, cs⟩ := hd
        have hidx : forestPreIdx ((n + 1) :: j :: q) (FTree.node v cs :: tl) =
            sizeT (FTree.node v cs) + forestPreIdx (n :: j :: q) tl := by
          simp [forestPreIdx, treeNth, hnth, List.take_succ_cons, sizeF_cons]; omega
        have her : erase_with_subtree ((n + 1) :: j :: q) (FTree.node v cs :: tl) =
            FTree.node v cs :: erase_with_subtree (n :: j :: q) tl := rfl
        constructor
        · rw [hidx, sizeF_cons]
          omega
        · rw [her, hidx, sizeT_node, preF_cons_node, preF_cons_node]
          exact take_drop_mid v (preF cs) (preF tl)
            (preF (erase_with_subtree (n :: j :: q) tl))
            (forestPreIdx (n :: j :: q) tl) (sizeT t) he2

theorem erase_spec {α : Type} :
    ∀ (p : List Nat) (ts : List (FTree α)) (t : FTree α),
      forestGet p ts = some t →
      forestPreIdx p ts + sizeT t ≤ sizeF ts ∧
      preF (erase_with_subtree p ts) =
        (preF ts).take (forestPreIdx p ts) ++
          (preF ts).drop (forestPreIdx p ts + sizeT t) := by
  intro p
  induction p with
  | nil => intro ts t h; cases h
  | cons i rest ih =>
    cases rest with
    | nil =>
      intro ts t h
      exact eraseNth_spec ts i t h
    | cons j q =>
      intro ts t h
      exact erase_spec_step j q ih ts i t h

/-- C8: erasing a valid position whose subtree has `M` descendants
(`M + 1` entries in total) removes exactly those `M + 1` tree entries —
in the depth-first entry sequence, exactly the contiguous block from the
subtree's leading bound — and the entries of every node outside that
depth-first range are preserved unchanged (the remaining sequence is the
original with just that block deleted). -/
theorem erase_with_subtree_spec {α : Type} (p : List Nat) (ts : List (FTree α))
    (t : FTree α) (M : Nat) (hget : forestGet p ts = some t)
    (hM : sizeT t = M + 1) :
    sizeF (erase_with_subtree p ts) + (M + 1) = sizeF ts ∧
    preF (erase_with_subtree p ts) =
      (preF ts).take (forestPreIdx p ts) ++
        (preF ts).drop (forestPreIdx p ts + (M + 1)) := by
  obtain ⟨hb, he⟩ := erase_spec p ts t hget
  rw [hM] at hb he
  refine ⟨?_, he⟩
  have hsz : sizeF (erase_with_subtree p ts) =
      (preF (erase_with_subtree p ts)).length := rfl
  have hsz2 : sizeF ts = (preF ts).length := rfl
  have hb' : forestPreIdx p ts + (M + 1) ≤ (preF ts).length := hsz2 ▸ hb
  rw [hsz, hsz2, he, List.length_append, List.length_take, List.length_drop]
  have hmin : min (forestPreIdx p ts) (preF ts).length = forestPreIdx p ts :=
    Nat.min_eq_left (by omega)
  omega

/-- Witness for C8 at a concrete input: erasing the subtree at position
`[0, 1]` (value 2, one descendant, M = 1) of a five-entry forest. -/
theorem erase_with_subtree_spec_witness :
    sizeF (erase_with_subtree [0, 1]
        [FTree.node 0 [FTree.node 1 [], FTree.node 2 [FTree.node 3 []]],
         FTree.node 4 []]) + (1 + 1) =
      sizeF [FTree.node 0 [FTree.node 1 [], FTree.node 2 [FTree.node 3 []]],
         FTree.node 4 []] ∧
    preF (erase_with_subtree [0, 1]
        [FTree.node 0 [FTree.node 1 [], FTree.node 2 [FTree.node 3 []]],
         FTree.node 4 []]) =
      (preF [FTree.node 0 [FTree.node 1 [], FTree.node 2 [FTree.node 3 []]],
         FTree.node 4 []]).take
        (forestPreIdx [0, 1]
          [FTree.node 0 [FTree.node 1 [], FTree.node 2 [FTree.node 3 []]],
           FTree.node 4 []]) ++
      (preF [FTree.node 0 [FTree.node 1 [], FTree.node 2 [FTree.node 3 []]],
         FTree.node 4 []]).drop
        (forestPreIdx [0, 1]
          [FTree.node 0 [FTree.node 1 [], FTree.node 2 [FTree.node 3 []]],
           FTree.node 4 []] + (1 + 1)) :=
  erase_with_subtree_spec [0, 1]
    [FTree.node 0 [FTree.node 1 [], FTree.node 2 [FTree.node 3 []]],
     FTree.node 4 []]
    (FTree.node 2 [FTree.node 3 []]) 1
    (by simp [forestGet, treeNth]) (by simp [sizeT, sizeF, preF])

/-- The per-node record the ownership tree stores: the node's region (an
opaque handle of type `ρ`, per the spec's region model) and its name — the
`tree_base_node` data the tree-shape claim is about. -/
structure NodeRec (ρ : Type) where
  region : ρ
  name : String

/-- Value stored at the root of a subtree. -/
def rootVal {α : Type} : FTree α → α
  | FTree.node v _ => v

/-- The values of the children of the node at a position, in sibling
order. -/
def childrenVals {α : Type} (p : List Nat) (ts : List (FTree α)) : List α :=
  match forestGet p ts with
  | some (FTree.node _ cs) => cs.map rootVal
  | none => []

/-- Modelled from the spec: `add_child` is declared in base_node.hpp but
defined outside src/; per the spec it takes ownership of the child and
inserts it as the last child of the parent in the tree. -/
def appendChild {α : Type} (v : α) : List Nat → List (FTree α) → List (FTree α)
  | [], ts => ts
  | [i], ts => modifyTree (fun t => match t with
      | FTree.node w cs => FTree.node w (cs ++ [FTree.node v []])) i ts
  | i :: j :: q, ts => modifyTree (fun t => match t with
      | FTree.node w cs => FTree.node w (appendChild v (j :: q) cs)) i ts

/-- `owning_base_node::make_child<node_t>` at parent position `p`: builds
the child's `tree_base_node{fg_, region(), node_t::default_name}` — the
parent's own region, and the type's (or given) name — and hands it to
`add_child`, which inserts it as the last child of the parent. -/
def make_child {ρ : Type} (p : List Nat) (nm : String)
    (ts : List (FTree (NodeRec ρ))) : List (FTree (NodeRec ρ)) :=
  match forestGet p ts with
  | some t => appendChild ⟨(rootVal t).region, nm⟩ p ts
  | none => ts

theorem forestGet_appendChild_single {α : Type} :
    ∀ (ts : List (FTree α)) (i : Nat) (w : α) (cs : List (FTree α)) (v : α),
      forestGet [i] ts = some (FTree.node w cs) →
      forestGet [i] (appendChild v [i] ts) =
        some (FTree.node w (cs ++ [FTree.node v []])) := by
  intro ts
  induction ts with
  | nil => intro i w cs v h; cases h
  | cons hd tl ihts =>
    intro i w cs v h
    cases i with
    | zero =>
      have hh : hd = FTree.node w cs := Option.some.inj h
      subst hh
      rfl
    | succ n =>
      have h' : forestGet [n] tl = some (FTree.node w cs) := h
      have happ : appendChild v [n + 1] (hd :: tl) = hd :: appendChild v [n] tl := rfl
      rw [happ]
      have hget : forestGet [n + 1] (hd :: appendChild v [n] tl) =
          forestGet [n] (appendChild v [n] tl) := rfl
      rw [hget]
      exact ihts n w cs v h'

theorem forestGet_appendChild_step {α : Type} (j : Nat) (q : List Nat)
    (ih : ∀ (ts : List (FTree α)) (w : α) (cs : List (FTree α)) (v : α),
      forestGet (j :: q) ts = some (FTree.node w cs) →
      forestGet (j :: q) (appendChild v (j :: q) ts) =
        some (FTree.node w (cs ++ [FTree.node v []]))) :
    ∀ (ts : List (FTree α)) (i : Nat) (w : α) (cs : List (FTree α)) (v : α),
      forestGet (i :: j :: q) ts = some (FTree.node w cs) →
      forestGet (i :: j :: q) (appendChild v (i :: j :: q) ts) =
        some (FTree.node w (cs ++ [FTree.node v []])) := by
  intro ts
  induction ts with
  | nil =>
    intro i w cs v h
    cases i <;> exact absurd h (by simp [forestGet, treeNth])
  | cons hd tl ihts =>
    intro i w cs v h
    cases i with
    | zero =>
      obtain ⟨u, ds⟩ := hd
      have h' : forestGet (j :: q) ds = some (FTree.node w cs) := h
      have happ : appendChild v (0 :: j :: q) (FTree.node u ds :: tl) =
          FTree.node u (appendChild v (j :: q) ds) :: tl := rfl
      rw [happ]
      have hget : forestGet (0 :: j :: q)
            (FTree.node u (appendChild v (j :: q) ds) :: tl) =
          forestGet (j :: q) (appendChild v (j :: q) ds) := rfl
      rw [hget]
      exact ih ds w cs v h'
    | succ n =>
      have h' : forestGet (n :: j :: q) tl = some (FTree.node w cs) := h
      have happ : appendChild v ((n + 1) :: j :: q) (hd :: tl) =
          hd :: appendChild v (n :: j :: q) tl := rfl
      rw [happ]
      have hget : forestGet ((n + 1) :: j :: q)
            (hd :: appendChild v (n :: j :: q) tl) =
          forestGet (n :: j :: q) (appendChild v (n :: j :: q) tl) := rfl
      rw [hget]
      exact ihts n w cs v h'

theorem forestGet_appendChild {α : Type} :
    ∀ (p : List Nat) (ts : List (FTree α)) (w : α) (cs : List (FTree α)) (v : α),
      forestGet p ts = some (FTree.node w cs) →
      forestGet p (appendChild v p ts) =
        some (FTree.node w (cs ++ [FTree.node v []])) := by
  intro p
  induction p with
  | nil => intro ts w cs v h; cases h
  | cons i rest ih =>
    cases rest with
    | nil => exact fun ts w cs v h => forestGet_appendChild_single ts i w cs v h
    | cons j q => exact fun ts w cs v h => forestGet_appendChild_step j q ih ts i w cs v h

theorem make_child_fold {ρ : Type} (p : List Nat) :
    ∀ (names : List String) (ts : List (FTree (NodeRec ρ))) (w : NodeRec ρ)
      (cs : List (FTree (NodeRec ρ))),
      forestGet p ts = some (FTree.node w cs) →
      forestGet p (names.foldl (fun f nm => make_child p nm f) ts) =
        some (FTree.node w
          (cs ++ names.map (fun nm => FTree.node (⟨w.region, nm⟩ : NodeRec ρ) []))) := by
  intro names
  induction names with
  | nil => intro ts w cs h; simpa using h
  | cons nm rest ih =>
    intro ts w cs h
    rw [List.foldl_cons]
    have hmc : make_child p nm ts = appendChild ⟨w.region, nm⟩ p ts := by
      simp [make_child, h, rootVal]
    rw [hmc]
    have h2 := forestGet_appendChild p ts w cs ⟨w.region, nm⟩ h
    have h3 := ih (appendChild ⟨w.region, nm⟩ p ts) w
      (cs ++ [FTree.node ⟨w.region, nm⟩ []]) h2
    rw [h3]
    simp

/-- C9: K calls of `make_child` on an owning node at a valid position add
exactly K children, in call (insertion) order, as the last children of that
node, and every child carries the parent's own region; in particular each
call grows the child count by exactly one, and a fresh parent ends up with
exactly K children. -/
theorem make_child_tree_shape {ρ : Type} (p : List Nat)
    (ts : List (FTree (NodeRec ρ))) (w : NodeRec ρ)
    (cs : List (FTree (NodeRec ρ))) (names : List String)
    (hget : forestGet p ts = some (FTree.node w cs)) :
    childrenVals p (names.foldl (fun f nm => make_child p nm f) ts) =
      childrenVals p ts ++ names.map (fun nm => (⟨w.region, nm⟩ : NodeRec ρ)) ∧
    (childrenVals p (names.foldl (fun f nm => make_child p nm f) ts)).length =
      (childrenVals p ts).length + names.length := by
  have h4 := make_child_fold p names ts w cs hget
  have hleft : childrenVals p (names.foldl (fun f nm => make_child p nm f) ts) =
      cs.map rootVal ++ names.map (fun nm => (⟨w.region, nm⟩ : NodeRec ρ)) := by
    simp [childrenVals, h4, rootVal]
  have hright : childrenVals p ts = cs.map rootVal := by
    simp [childrenVals, hget]
  constructor
  · rw [hleft, hright]
  · rw [hleft, hright]
    simp

/-- Witness for C9 at a concrete input: two `make_child` calls on a fresh
root with region 5 yield exactly its two children, in call order, both with
region 5. -/
theorem make_child_tree_shape_witness :
    childrenVals [0] (["a", "b"].foldl (fun f nm => make_child [0] nm f)
        [FTree.node (⟨5, "root"⟩ : NodeRec Nat) []]) =
      childrenVals [0] [FTree.node (⟨5, "root"⟩ : NodeRec Nat) []] ++
        ["a", "b"].map (fun nm => (⟨5, nm⟩ : NodeRec Nat)) ∧
    (childrenVals [0] (["a", "b"].foldl (fun f nm => make_child [0] nm f)
        [FTree.node (⟨5, "root"⟩ : NodeRec Nat) []])).length =
      (childrenVals [0] [FTree.node (⟨5, "root"⟩ : NodeRec Nat) []]).length + 2 :=
  make_child_tree_shape [0] [FTree.node ⟨5, "root"⟩ []] ⟨5, "root"⟩ [] ["a", "b"]
    (by simp [forestGet, treeNth])

end fc
